import Mathlib

/-!
Shallow embedding of the multi-strategy OCR engine of the LMN-Overlay
repository (`services/ocr_service.py` and the OCR route handlers in
`routes/ocr.py`), together with theorems settling the specification
claims about it.

Python strings are modelled as `List Char` (`Str`), Python `None` as
`Option`, machine reals used for confidences as `ℚ` (the code only ever
forms integer sums divided by counts and fixed decimal literals),
exceptions as `Option`/`Except`, and the recognition backend as an
oracle function supplied explicitly.
-/

namespace LMN

/-- Python strings are modelled as lists of characters. -/
abbrev Str := List Char

/-- Characters removed by Python's `str.strip()` with no argument. -/
def pySpace (c : Char) : Bool :=
  c == ' ' || c == '\t' || c == '\n' || c == '\r' || c == '\x0b' || c == '\x0c'

/-- Drop leading Python whitespace, the left half of `str.strip()`. -/
def stripStart (l : Str) : Str := l.dropWhile pySpace

/-- Drop trailing Python whitespace, the right half of `str.strip()`. -/
def stripEnd (l : Str) : Str := (l.reverse.dropWhile pySpace).reverse

/-- Python's `text.strip()`: remove whitespace from both ends. -/
def stripChars (l : Str) : Str := stripEnd (stripStart l)

/-- Helper for `splitLines`: prepend a character to the first piece. -/
def consHead (c : Char) : List Str → List Str
  | [] => [[c]]
  | l :: ls => (c :: l) :: ls

/-- Python's `text.split('\n')`: split into pieces at every newline. -/
def splitLines : Str → List Str
  | [] => [[]]
  | c :: cs => if c = '\n' then [] :: splitLines cs else consHead c (splitLines cs)

/-- Python's `'\n'.join(lines)`. -/
def joinLines (ls : List Str) : Str := List.intercalate ['\n'] ls

/-- OCRService.clean_text: split into lines, strip each line, drop lines
that became empty, rejoin with a single newline; empty input returns
the empty string (`if not text: return ''`). -/
def clean_text (t : Str) : Str :=
  if t = [] then []
  else joinLines (((splitLines t).map stripChars).filter (fun l => !l.isEmpty))

/-- Outcome of one pytesseract call that did not raise: the raw
`image_to_string` text and, if `image_to_data` succeeded, its `conf`
column (`none` models the inner `except` path). -/
structure TessOut where
  text : Str
  confs : Option (List Int)
deriving DecidableEq

/-- Average-confidence computation of `extract_text_from_image`:
entries equal to -1 are filtered out, the rest averaged; an exception
from `image_to_data` (`none`) or an empty filtered list yields 0. -/
def avgConfidence : Option (List Int) → ℚ
  | none => 0
  | some cs =>
    let v := cs.filter (fun c => c != -1)
    if v = [] then 0 else (v.sum : ℚ) / (v.length : ℚ)

/-- Confidence assigned to one recognition attempt. -/
def attemptConf (out : TessOut) : ℚ := avgConfidence out.confs

/-- The fixed page-segmentation-mode list of `extract_text_from_image`. -/
def psm_modes : List Nat := [3, 6, 4, 1, 11, 12]

/-- Running best result inside `extract_text_from_image`
(`best_result = {'text': '', 'confidence': 0}`). -/
structure BestR where
  text : Str
  confidence : ℚ
  psm : Option Nat
deriving DecidableEq

/-- The PSM loop of `extract_text_from_image`.  `att` is the backend
oracle for one preprocessing variant: `none` models an attempt that
raised.  Returns the final best result together with the list of PSM
modes that were actually executed, in order. -/
def runPsms (att : Nat → Option TessOut) : List Nat → BestR → BestR × List Nat
  | [], best => (best, [])
  | psm :: rest, best =>
    match att psm with
    | none =>
      let r := runPsms att rest best
      (r.1, psm :: r.2)
    | some out =>
      let conf := attemptConf out
      let stripped := stripChars out.text
      let best' :=
        if conf > best.confidence ∧ stripped.length > 0 then
          { text := stripped, confidence := conf, psm := some psm }
        else best
      if conf > 75 ∧ stripped.length > 10 then (best', [psm])
      else
        let r := runPsms att rest best'
        (r.1, psm :: r.2)

/-- Dictionary returned by `extract_text_from_image`. -/
structure ExtractResult where
  success : Bool
  text : Str
  confidence : ℚ
  psm_used : Nat
  error : Option Str
deriving DecidableEq

/-- Error message of the no-text branch of `extract_text_from_image`. -/
def noTextMsg : Str := "No text extracted from any PSM mode".toList

/-- OCRService.extract_text_from_image for one preprocessing variant,
with the backend attempts supplied by the oracle `att`; also returns
the executed PSM list for attempt-count instrumentation. -/
def extract_text_from_image (att : Nat → Option TessOut) : ExtractResult × List Nat :=
  let r := runPsms att psm_modes { text := [], confidence := 0, psm := none }
  if r.1.text ≠ [] then
    ({ success := true, text := r.1.text, confidence := r.1.confidence,
       psm_used := r.1.psm.getD 3, error := none }, r.2)
  else
    ({ success := false, text := [], confidence := 0, psm_used := 3,
       error := some noTextMsg }, r.2)

/-- Attempt score of `extract_text_with_multiple_strategies`:
`confidence * (1 + min(text_length / 100, 1.0))`. -/
def score (conf : ℚ) (len : Nat) : ℚ := conf * (1 + min ((len : ℚ) / 100) 1)

/-- The fixed preprocessing-strategy order of
`extract_text_with_multiple_strategies`. -/
def strategies : List String := ["advanced", "basic", "none"]

/-- Running best result of the strategies loop
(`best_result = {'text': '', 'confidence': 0}`, `success`/`strategy`
keys absent modelled as `false`/`none`). -/
structure StratBest where
  success : Bool
  text : Str
  confidence : ℚ
  strategy : Option String
deriving DecidableEq

/-- The strategies loop of `extract_text_with_multiple_strategies`.
Returns the final best result and, per executed strategy, the list of
PSM modes executed for it. -/
def runStrategies (att : String → Nat → Option TessOut) :
    List String → StratBest → StratBest × List (String × List Nat)
  | [], best => (best, [])
  | strat :: rest, best =>
    let er := extract_text_from_image (att strat)
    let r := er.1
    let text_length := (stripChars r.text).length
    let sc := score r.confidence text_length
    let bestSc := score best.confidence best.text.length
    let best' :=
      if r.success ∧ sc > bestSc then
        { success := r.success, text := r.text, confidence := r.confidence,
          strategy := some strat }
      else best
    if r.success ∧ r.confidence > 80 ∧ text_length > 20 then (best', [(strat, er.2)])
    else
      let rr := runStrategies att rest best'
      (rr.1, (strat, er.2) :: rr.2)

/-- OCRService.extract_text_with_multiple_strategies, instrumented with
the executed attempt traces. -/
def extract_text_with_multiple_strategies (att : String → Nat → Option TessOut) :
    StratBest × List (String × List Nat) :=
  runStrategies att strategies { success := false, text := [], confidence := 0, strategy := none }

/-- Per-image result dict as `extract_text_from_multiple_images` reads
it: the `'success'` key is optional (`none` models an absent key — the
strategies loop's initial `best_result = {'text': '', 'confidence': 0}`
has no such key), while `'text'` is always present. -/
structure ImageDict where
  success : Option Bool
  text : Str
deriving DecidableEq

/-- The strategies-loop best as `extract_text_from_multiple_images`
sees it: `best_result` starts as the keyless
`{'text': '', 'confidence': 0}` dict and is only ever replaced by a
successful extract result (which carries `success = True`), so the
`'success'` key is present exactly when the stored flag is true
(`runStrategies_keyless` proves the flag is still the initial `false`
exactly when no replacement ever happened). -/
def stratBestDict (r : StratBest) : ImageDict :=
  { success := if r.success then some true else none, text := r.text }

/-- A result of `extract_text_from_image` always carries the
`'success'` key: both return branches of the source set it. -/
def extractDict (r : ExtractResult) : ImageDict :=
  { success := some r.success, text := r.text }

/-- Dictionary returned by `extract_text_from_multiple_images` when it
returns at all. -/
structure MultiResult where
  success : Bool
  combined_text : Str
  individual_results : List ImageDict
  total_images : Nat
  successful_extractions : Nat
deriving DecidableEq

/-- The per-image loop of `extract_text_from_multiple_images`: append
each result, then `if result['success'] and result['text']` — plain
indexing, so an absent `'success'` key raises `KeyError`
(`Except.error ()`), aborting the whole call.  Returns the result list
and the collected combined-text parts. -/
def multiLoop (ocr : String → ImageDict) : List String → Except Unit (List ImageDict × List Str)
  | [] => Except.ok ([], [])
  | p :: rest =>
    match (ocr p).success with
    | none => Except.error ()
    | some b =>
      match multiLoop ocr rest with
      | Except.error e => Except.error e
      | Except.ok v =>
        Except.ok ((ocr p) :: v.1,
          if b ∧ (ocr p).text ≠ [] then (ocr p).text :: v.2 else v.2)

/-- OCRService.extract_text_from_multiple_images with the per-image
extraction supplied by the oracle `ocr` (compose `stratBestDict` with
the strategies pipeline for the default `use_multiple_strategies=True`
mode, or `extractDict` with `extract_text_from_image` for the single
mode).  A `KeyError` from the loop propagates out.  The final
`successful_extractions` count also indexes `r['success']`, but every
listed result is keyed when that line is reached, the loop having
raised otherwise. -/
def extract_text_from_multiple_images (ocr : String → ImageDict)
    (paths : List String) (sep : Str) : Except Unit MultiResult :=
  match multiLoop ocr paths with
  | Except.error e => Except.error e
  | Except.ok v =>
    Except.ok
      { success := true
        combined_text := List.intercalate sep v.2
        individual_results := v.1
        total_images := paths.length
        successful_extractions := (v.1.filter (fun r => r.success == some true)).length }

/-- Persisted image unit of the OCR routes (`models.OCRImage`): only
the fields the claims are about. -/
structure OCRImage where
  id : Nat
  order_index : Int
  status : String
  extracted_text : Option Str
  error_message : Option Str
deriving DecidableEq

/-- Persisted session record (`models.OCRSession`) together with its
member images, only the fields the claims are about. -/
structure SessionState where
  images : List OCRImage
  combined_text : Str
  image_count : Nat
  status : String
deriving DecidableEq

/-- Ordering used by `order_by(OCRImage.order_index)`. -/
def imgLe (a b : OCRImage) : Prop := a.order_index ≤ b.order_index

instance : DecidableRel imgLe := fun _ _ => inferInstanceAs (Decidable (_ ≤ _))

instance : IsTotal OCRImage imgLe := ⟨fun a b => le_total a.order_index b.order_index⟩

instance : IsTrans OCRImage imgLe := ⟨fun _ _ _ h₁ h₂ => le_trans h₁ h₂⟩

/-- Reading the session's members sorted by `order_index`. -/
def sortImgs (l : List OCRImage) : List OCRImage := List.insertionSort imgLe l

/-- The `'\n\n'` separator of the routes' combined-text joins. -/
def sepNN : Str := ['\n', '\n']

/-- Result of the per-image pipeline call in `process_session`
(`success`, `text`, and the optional `error` entry of the dict). -/
structure PipeResult where
  success : Bool
  text : Str
  error : Option Str
deriving DecidableEq

/-- Default error used by `result.get('error', 'No text extracted')`. -/
def defaultErr : Str := "No text extracted".toList

/-- One iteration of the `process_session` loop for one image: run the
pipeline (`Except.error` models a raised exception, caught by the
handler) and set the final status.  The transient `processing` status
the loop commits first is overwritten in both branches of the same
iteration, so it is not part of the post-state. -/
def processOne (pipe : Nat → Except Str PipeResult) (img : OCRImage) : OCRImage :=
  match pipe img.id with
  | Except.error e => { img with status := "failed", error_message := some e }
  | Except.ok r =>
    if r.success ∧ r.text ≠ [] then
      { img with status := "completed", extracted_text := some (clean_text r.text) }
    else
      { img with status := "failed", error_message := some (r.error.getD defaultErr) }

/-- Body of the `process_session` route after the empty check: process
every member in ascending `order_index`, then join the texts collected
from the images that completed, in processing order. -/
def process_session (pipe : Nat → Except Str PipeResult) (s : SessionState) : SessionState :=
  { images := (sortImgs s.images).map (processOne pipe)
    combined_text := List.intercalate sepNN (((sortImgs s.images).map (processOne pipe)).filterMap
      (fun i => if i.status = "completed" then i.extracted_text else none))
    image_count := s.image_count
    status := "completed" }

/-- Error message of the route's `if not images` branch. -/
def noImagesErr : Str := "No images to process".toList

/-- The `process_session` route handler including its only error
return, the empty-session 400. -/
def process_session_route (pipe : Nat → Except Str PipeResult) (s : SessionState) :
    Except Str SessionState :=
  if s.images = [] then Except.error noImagesErr else Except.ok (process_session pipe s)

/-- One step of the reorder loop: `OCRImage.query.get(image_id)` then
set its `order_index` if it belongs to the session (images of other
sessions or unknown ids are left alone, which the membership list
already encodes). -/
def setOrderIndex (imgs : List OCRImage) (iid : Nat) (idx : Nat) : List OCRImage :=
  imgs.map (fun img => if img.id = iid then { img with order_index := (idx : Int) } else img)

/-- The `for idx, image_id in enumerate(image_order)` loop of the
reorder route, with `idx` starting at the given value. -/
def applyOrderAux : List OCRImage → List Nat → Nat → List OCRImage
  | imgs, [], _ => imgs
  | imgs, iid :: rest, idx => applyOrderAux (setOrderIndex imgs iid idx) rest (idx + 1)

/-- Python truthiness of the nullable `extracted_text` column. -/
def pyTruthy : Option Str → Bool
  | none => false
  | some t => !t.isEmpty

/-- The `reorder_images` route handler: apply the supplied id list
positionally (no validation), then recompute `combined_text` from the
members that are `completed` and have truthy `extracted_text`, in the
new `order_index` order. -/
def reorder_images (s : SessionState) (order : List Nat) : SessionState :=
  { s with
    images := applyOrderAux s.images order 0
    combined_text := List.intercalate sepNN
      (((sortImgs (applyOrderAux s.images order 0)).filter
          (fun i => pyTruthy i.extracted_text && i.status == "completed")).map
        (fun i => i.extracted_text.getD [])) }

/-- Body of the `reprocess_single_image` handler for one image: the
same status logic as `processOne`, without the `processing` step and
without touching any session field. -/
def reprocessOne (res : Except Str PipeResult) (img : OCRImage) : OCRImage :=
  match res with
  | Except.error e => { img with status := "failed", error_message := some e }
  | Except.ok r =>
    if r.success ∧ r.text ≠ [] then
      { img with status := "completed", extracted_text := some (clean_text r.text) }
    else
      { img with status := "failed", error_message := some (r.error.getD defaultErr) }

/-- The `reprocess_single_image` route handler: update only the one
image; the owning session's `combined_text` is not recomputed. -/
def reprocess_single_image (res : Except Str PipeResult) (iid : Nat)
    (s : SessionState) : SessionState :=
  { s with images := s.images.map (fun img => if img.id = iid then reprocessOne res img else img) }

/-- The `delete_image` route handler: remove the image and refresh
`image_count`; `combined_text` is not recomputed. -/
def delete_image (iid : Nat) (s : SessionState) : SessionState :=
  let imgs := s.images.filter (fun img => img.id != iid)
  { s with images := imgs, image_count := imgs.length }

/-- Canonical combined text of a member list as the specification
states it: the stored texts of `completed` members joined by `'\n\n'`
in ascending `order_index` order. -/
def combinedOf (imgs : List OCRImage) : Str :=
  List.intercalate sepNN ((sortImgs imgs).filterMap
    (fun i => if i.status = "completed" then i.extracted_text else none))

/-- Specification invariant: the session's stored `combined_text`
agrees with the canonical recomputation from its members. -/
abbrev sessionInv (s : SessionState) : Prop := s.combined_text = combinedOf s.images

/-- Last index at which an id occurs in a supplied order list. -/
def lastIdx (iid : Nat) : List Nat → Option Nat
  | [] => none
  | x :: xs =>
    match lastIdx iid xs with
    | some k => some (k + 1)
    | none => if x = iid then some 0 else none

/-- Preprocessed images are modelled abstractly by a tag. -/
abbrev Img := String

/-- OCRService.preprocess_image_basic: `basicCore` is the body of its
`try` block (`none` models a raised exception); on failure it returns
`Image.open(image_path)`, the pass-through image `fallbackOpen`. -/
def preprocess_image_basic (basicCore fallbackOpen : Option Img) : Option Img :=
  match basicCore with
  | some i => some i
  | none => fallbackOpen

/-- OCRService.preprocess_image_advanced: `advCore` is the body of its
`try` block; on failure it falls back to `preprocess_image_basic`. -/
def preprocess_image_advanced (advCore basicCore fallbackOpen : Option Img) : Option Img :=
  match advCore with
  | some i => some i
  | none => preprocess_image_basic basicCore fallbackOpen

/-! Helper lemmas about `dropWhile`, stripping and line splitting. -/

theorem dropWhile_idem {α} (p : α → Bool) (l : List α) :
    (l.dropWhile p).dropWhile p = l.dropWhile p := by
  induction l with
  | nil => rfl
  | cons c cs ih =>
    by_cases h : p c
    · simpa [List.dropWhile_cons, h] using ih
    · simp [List.dropWhile_cons, h]

theorem dropWhile_length_le {α} (p : α → Bool) (l : List α) :
    (l.dropWhile p).length ≤ l.length := by
  induction l with
  | nil => exact le_rfl
  | cons c cs ih =>
    by_cases h : p c
    · simp only [List.dropWhile_cons, if_pos h]
      exact le_trans ih (Nat.le_succ _)
    · simp [List.dropWhile_cons, h]

theorem head_not_of_dropWhile_eq_self {α} (p : α → Bool) (c : α) (t : List α)
    (h : (c :: t).dropWhile p = c :: t) : p c = false := by
  by_cases hp : p c
  · rw [List.dropWhile_cons, if_pos hp] at h
    have hlen := congrArg List.length h
    have hle := dropWhile_length_le p t
    simp only [List.length_cons] at hlen
    omega
  · simpa using hp

theorem dropWhile_suffix_ex {α} (p : α → Bool) (l : List α) :
    ∃ u, u ++ l.dropWhile p = l := by
  induction l with
  | nil => exact ⟨[], rfl⟩
  | cons c cs ih =>
    by_cases h : p c
    · rcases ih with ⟨u, hu⟩
      exact ⟨c :: u, by simp [List.dropWhile_cons, h, hu]⟩
    · exact ⟨[], by simp [List.dropWhile_cons, h]⟩

theorem dropWhile_eq_self_of_append {α} (p : α → Bool) (r v : List α)
    (h : (r ++ v).dropWhile p = r ++ v) : r.dropWhile p = r := by
  cases r with
  | nil => rfl
  | cons c t =>
    have hc : p c = false := head_not_of_dropWhile_eq_self p c (t ++ v) (by simpa using h)
    simp [List.dropWhile_cons, hc]

theorem mem_of_mem_dropWhile {α} {p : α → Bool} {c : α} {l : List α}
    (h : c ∈ l.dropWhile p) : c ∈ l := by
  rcases dropWhile_suffix_ex p l with ⟨u, hu⟩
  rw [← hu]
  exact List.mem_append_right u h

theorem stripStart_stripStart (l : Str) : stripStart (stripStart l) = stripStart l :=
  dropWhile_idem pySpace l

theorem stripEnd_stripEnd (l : Str) : stripEnd (stripEnd l) = stripEnd l := by
  unfold stripEnd
  rw [List.reverse_reverse, dropWhile_idem]

theorem stripStart_stripEnd_of_stripStart (l : Str)
    (h : stripStart l = l) : stripStart (stripEnd l) = stripEnd l := by
  rcases dropWhile_suffix_ex pySpace l.reverse with ⟨u, hu⟩
  have hl : (l.reverse.dropWhile pySpace).reverse ++ u.reverse = l := by
    have h2 := congrArg List.reverse hu
    simpa [List.reverse_append] using h2
  unfold stripEnd
  exact dropWhile_eq_self_of_append pySpace _ u.reverse (by rw [hl]; exact h)

theorem stripChars_idem (l : Str) : stripChars (stripChars l) = stripChars l := by
  unfold stripChars
  rw [stripStart_stripEnd_of_stripStart (stripStart l) (stripStart_stripStart l),
      stripEnd_stripEnd]

theorem mem_of_mem_stripChars {c : Char} {l : Str} (h : c ∈ stripChars l) : c ∈ l := by
  unfold stripChars stripEnd stripStart at h
  rw [List.mem_reverse] at h
  have h1 := mem_of_mem_dropWhile h
  rw [List.mem_reverse] at h1
  exact mem_of_mem_dropWhile h1

theorem splitLines_no_nl : ∀ (t : Str), ∀ piece ∈ splitLines t, '\n' ∉ piece := by
  intro t
  induction t with
  | nil =>
    intro piece h
    simp only [splitLines, List.mem_singleton] at h
    simp [h]
  | cons c cs ih =>
    intro piece h
    by_cases hc : c = '\n'
    · rw [splitLines, if_pos hc] at h
      rcases List.mem_cons.mp h with rfl | h'
      · simp
      · exact ih piece h'
    · rw [splitLines, if_neg hc] at h
      cases hs : splitLines cs with
      | nil =>
        rw [hs] at h
        simp only [consHead, List.mem_singleton] at h
        subst h
        simp only [List.mem_singleton]
        exact fun hh => hc hh.symm
      | cons l ls =>
        rw [hs] at h
        simp only [consHead] at h
        rcases List.mem_cons.mp h with rfl | h'
        · intro hmem
          rcases List.mem_cons.mp hmem with h1 | h1
          · exact hc h1.symm
          · exact ih l (by rw [hs]; exact List.mem_cons_self l ls) h1
        · exact ih piece (by rw [hs]; exact List.mem_cons_of_mem l h')

theorem splitLines_of_no_nl : ∀ (p : Str), '\n' ∉ p → splitLines p = [p] := by
  intro p
  induction p with
  | nil => intro _; rfl
  | cons c cs ih =>
    intro h
    have hc : ¬ c = '\n' := fun hh => h (by rw [hh]; exact List.mem_cons_self _ _)
    rw [splitLines, if_neg hc, ih (fun hm => h (List.mem_cons_of_mem c hm))]
    rfl

theorem splitLines_append_nl (p t : Str) (h : '\n' ∉ p) :
    splitLines (p ++ '\n' :: t) = p :: splitLines t := by
  induction p with
  | nil => simp [splitLines]
  | cons c cs ih =>
    have hc : ¬ c = '\n' := fun hh => h (by rw [hh]; exact List.mem_cons_self _ _)
    have h' : '\n' ∉ cs := fun hm => h (List.mem_cons_of_mem c hm)
    rw [List.cons_append, splitLines, if_neg hc, ih h']
    rfl

theorem joinLines_cons₂ (p q : Str) (rest : List Str) :
    joinLines (p :: q :: rest) = p ++ '\n' :: joinLines (q :: rest) := by
  simp [joinLines, List.intercalate, List.intersperse]

theorem splitLines_joinLines : ∀ (ps : List Str), ps ≠ [] → (∀ p ∈ ps, '\n' ∉ p) →
    splitLines (joinLines ps) = ps := by
  intro ps
  induction ps with
  | nil => intro h; exact absurd rfl h
  | cons p rest ih =>
    intro _ hnl
    cases rest with
    | nil =>
      have h1 : joinLines [p] = p := by simp [joinLines, List.intercalate]
      rw [h1]
      exact splitLines_of_no_nl p (hnl p (List.mem_cons_self _ _))
    | cons q rest' =>
      rw [joinLines_cons₂, splitLines_append_nl p _ (hnl p (List.mem_cons_self _ _)),
          ih (by simp) (fun x hx => hnl x (List.mem_cons_of_mem p hx))]

theorem joinLines_ne_nil (p : Str) (rest : List Str) (hp : p ≠ []) :
    joinLines (p :: rest) ≠ [] := by
  cases rest with
  | nil => simpa [joinLines, List.intercalate] using hp
  | cons q r =>
    rw [joinLines_cons₂]
    cases p with
    | nil => exact absurd rfl hp
    | cons a as => simp

theorem clean_of_clean_pieces (ps : List Str)
    (h : ∀ x ∈ ps, stripChars x = x ∧ x ≠ [] ∧ '\n' ∉ x) :
    clean_text (joinLines ps) = joinLines ps := by
  cases ps with
  | nil => rfl
  | cons p rest =>
    have hp := h p (List.mem_cons_self _ _)
    rw [clean_text, if_neg (joinLines_ne_nil p rest hp.2.1)]
    rw [splitLines_joinLines (p :: rest) (by simp) (fun x hx => (h x hx).2.2)]
    have hmap : (p :: rest).map stripChars = p :: rest := by
      have h1 : (p :: rest).map stripChars = (p :: rest).map id :=
        List.map_congr_left (fun a ha => (h a ha).1)
      rw [h1, List.map_id]
    rw [hmap]
    congr 1
    apply List.filter_eq_self.mpr
    intro x hx
    simpa [List.isEmpty_iff] using (h x hx).2.1

/-- C7: the Text Cleaner splits its input into lines, trims each line,
drops lines that become empty and rejoins with a single newline, and it
is idempotent for every input string, with `clean_text` of the empty
string equal to the empty string. -/
theorem C7_clean_text_idempotent :
    (∀ t : Str, clean_text (clean_text t) = clean_text t) ∧ clean_text [] = [] := by
  constructor
  · intro t
    by_cases h0 : t = []
    · rw [h0]
      rfl
    · have hps : ∀ x ∈ ((splitLines t).map stripChars).filter (fun l => !l.isEmpty),
          stripChars x = x ∧ x ≠ [] ∧ '\n' ∉ x := by
        intro x hx
        have hx1 : x ∈ (splitLines t).map stripChars := List.mem_of_mem_filter hx
        have hx2 := List.of_mem_filter hx
        rcases List.mem_map.mp hx1 with ⟨y, hy, rfl⟩
        refine ⟨stripChars_idem y, ?_,
          fun hnl => splitLines_no_nl t y hy (mem_of_mem_stripChars hnl)⟩
        intro hxe
        rw [hxe] at hx2
        simp at hx2
      have ht : clean_text t =
          joinLines (((splitLines t).map stripChars).filter (fun l => !l.isEmpty)) := by
        rw [clean_text, if_neg h0]
      rw [ht]
      exact clean_of_clean_pieces _ hps
  · rfl

/-- C6: the attempt score is `confidence * (1 + min(text_length / 100, 1))`,
is monotone in text length at fixed nonnegative confidence, and text
beyond 100 characters gives no further bonus. -/
theorem C6_score_formula_monotone :
    (∀ (conf : ℚ) (len : Nat), score conf len = conf * (1 + min ((len : ℚ) / 100) 1))
  ∧ (∀ (conf : ℚ) (l₁ l₂ : Nat), 0 ≤ conf → l₁ ≤ l₂ → score conf l₁ ≤ score conf l₂)
  ∧ (∀ (conf : ℚ) (len : Nat), 100 ≤ len → score conf len = score conf 100) := by
  refine ⟨fun _ _ => rfl, ?_, ?_⟩
  · intro conf l₁ l₂ hc hl
    unfold score
    have h1 : ((l₁ : ℚ) / 100) ≤ ((l₂ : ℚ) / 100) := by
      have hq : (l₁ : ℚ) ≤ (l₂ : ℚ) := by exact_mod_cast hl
      gcongr
    have h2 : min ((l₁ : ℚ) / 100) 1 ≤ min ((l₂ : ℚ) / 100) 1 :=
      min_le_min h1 le_rfl
    have h3 : (1 : ℚ) + min ((l₁ : ℚ) / 100) 1 ≤ 1 + min ((l₂ : ℚ) / 100) 1 := by
      linarith
    exact mul_le_mul_of_nonneg_left h3 hc
  · intro conf len h
    unfold score
    have h1 : (1 : ℚ) ≤ (len : ℚ) / 100 := by
      rw [le_div_iff₀ (by norm_num : (0 : ℚ) < 100)]
      have hq : (100 : ℚ) ≤ (len : ℚ) := by exact_mod_cast h
      linarith
    have h2 : (1 : ℚ) ≤ ((100 : Nat) : ℚ) / 100 := by norm_num
    rw [min_eq_right h1, min_eq_right h2]

/-- C6 witness: the monotonicity at confidence 50 for lengths 30 ≤ 80,
and the saturation at length 250. -/
theorem C6_score_witness :
    (0 : ℚ) ≤ 50 ∧ (30 : Nat) ≤ 80
      ∧ score 50 30 ≤ score 50 80 ∧ score 7 250 = score 7 100 :=
  ⟨by norm_num, by norm_num,
   C6_score_formula_monotone.2.1 50 30 80 (by norm_num) (by norm_num),
   C6_score_formula_monotone.2.2 7 250 (by norm_num)⟩

/-- C8 (amended): when the backend does not expose per-token confidence
(the `image_to_data` call raises, modelled by `confs = none`, or every
entry is filtered out as -1), the attempt confidence is the constant 0,
independent of the extracted text and its length — there is no
length-derived heuristic confidence. -/
theorem C8_fallback_confidence_zero :
    (∀ t : Str, attemptConf { text := t, confs := none } = 0)
  ∧ (∀ t₁ t₂ : Str,
      attemptConf { text := t₁, confs := none } = attemptConf { text := t₂, confs := none })
  ∧ (∀ (t : Str) (cs : List Int), cs.filter (fun c => c != -1) = [] →
      attemptConf { text := t, confs := some cs } = 0) := by
  refine ⟨fun _ => rfl, fun _ _ => rfl, ?_⟩
  intro t cs h
  unfold attemptConf avgConfidence
  simp [h]

/-- C8 witness: an all-(-1) confidence column yields confidence 0. -/
theorem C8_fallback_confidence_witness :
    attemptConf { text := ['x'], confs := some [-1, -1] } = 0 :=
  C8_fallback_confidence_zero.2.2 ['x'] [-1, -1] (by decide)

/-- C8 counterexample: with no backend token confidence, a 15-character
text does not get a higher confidence than a 2-character text — both
get 0, so no length heuristic exists. -/
theorem C8_counterexample :
    ¬ (attemptConf { text := List.replicate 15 'x', confs := none } >
       attemptConf { text := List.replicate 2 'x', confs := none }) := by
  decide

/-- C9 (amended): when the `advanced` preprocessing transform throws it
falls back to `basic` preprocessing, not to the pass-through image;
`basic` in turn falls back to the pass-through `Image.open`; so only
when both transforms throw does the attempt use the pass-through
image, which still yields some attempt result. -/
theorem C9_fallback_chain :
    (∀ basicCore fallbackOpen : Option Img,
        preprocess_image_advanced none basicCore fallbackOpen =
          preprocess_image_basic basicCore fallbackOpen)
  ∧ (∀ fallbackOpen : Option Img, preprocess_image_basic none fallbackOpen = fallbackOpen)
  ∧ (∀ fallbackOpen : Option Img,
        preprocess_image_advanced none none fallbackOpen = fallbackOpen) :=
  ⟨fun _ _ => rfl, fun _ => rfl, fun _ => rfl⟩

/-- C9 counterexample: when the `advanced` transform throws but `basic`
succeeds, the attempt uses the basic-preprocessed image, which differs
from the pass-through image — so the fallback is not `none`. -/
theorem C9_counterexample :
    preprocess_image_advanced none (some "basic-processed") (some "pass-through") =
      some "basic-processed"
    ∧ some "basic-processed" ≠ (some "pass-through" : Option Img) := by
  decide

/-! Early-stop and attempt-order machinery. -/

/-- Stop condition the PSM loop applies to its current attempt. -/
def innerStops (att : Nat → Option TessOut) (psm : Nat) : Prop :=
  ∃ out, att psm = some out ∧ attemptConf out > 75 ∧ (stripChars out.text).length > 10

/-- Stop condition the strategies loop applies after one strategy. -/
def outerStops (att : String → Nat → Option TessOut) (strat : String) : Prop :=
  (extract_text_from_image (att strat)).1.success
  ∧ (extract_text_from_image (att strat)).1.confidence > 80
  ∧ (stripChars (extract_text_from_image (att strat)).1.text).length > 20

theorem mem_dropLast_cons {α} {x a : α} {t : List α} (hx : x ∈ (a :: t).dropLast) :
    x = a ∨ x ∈ t.dropLast := by
  cases t with
  | nil => simp at hx
  | cons b t' =>
    have he : (a :: b :: t').dropLast = a :: (b :: t').dropLast := rfl
    rw [he] at hx
    exact List.mem_cons.mp hx

theorem runPsms_no_stop_before_last (att : Nat → Option TessOut) :
    ∀ (psms : List Nat) (best : BestR),
      ∀ psm ∈ (runPsms att psms best).2.dropLast, ¬ innerStops att psm := by
  intro psms
  induction psms with
  | nil =>
    intro best psm h
    simp [runPsms] at h
  | cons p rest ih =>
    intro best psm hmem hstop
    cases hatt : att p with
    | none =>
      simp only [runPsms, hatt] at hmem
      rcases mem_dropLast_cons hmem with rfl | hmem'
      · rcases hstop with ⟨out, hout, _⟩
        rw [hatt] at hout
        exact Option.noConfusion hout
      · exact ih best psm hmem' hstop
    | some out =>
      simp only [runPsms, hatt] at hmem
      by_cases hc : attemptConf out > 75 ∧ (stripChars out.text).length > 10
      · rw [if_pos hc] at hmem
        simp at hmem
      · rw [if_neg hc] at hmem
        rcases mem_dropLast_cons hmem with rfl | hmem'
        · rcases hstop with ⟨out', hout', h75, h10⟩
          rw [hatt] at hout'
          cases hout'
          exact hc ⟨h75, h10⟩
        · exact ih _ psm hmem' hstop

theorem runStrategies_no_stop_before_last (att : String → Nat → Option TessOut) :
    ∀ (strats : List String) (best : StratBest),
      ∀ seg ∈ (runStrategies att strats best).2.dropLast, ¬ outerStops att seg.1 := by
  intro strats
  induction strats with
  | nil =>
    intro best seg h
    simp [runStrategies] at h
  | cons strat rest ih =>
    intro best seg hmem hstop
    simp only [runStrategies] at hmem
    by_cases hc : ((extract_text_from_image (att strat)).1.success : Prop)
        ∧ (extract_text_from_image (att strat)).1.confidence > 80
        ∧ (stripChars (extract_text_from_image (att strat)).1.text).length > 20
    · rw [if_pos hc] at hmem
      simp at hmem
    · rw [if_neg hc] at hmem
      rcases mem_dropLast_cons hmem with rfl | hmem'
      · exact hc hstop
      · exact ih _ seg hmem' hstop

theorem runPsms_allFail (att : Nat → Option TessOut) (h : ∀ psm, att psm = none) :
    ∀ (psms : List Nat) (best : BestR), runPsms att psms best = (best, psms) := by
  intro psms
  induction psms with
  | nil => intro best; rfl
  | cons p rest ih =>
    intro best
    simp [runPsms, h p, ih best]

theorem runStrategies_allFail (att : String → Nat → Option TessOut)
    (h : ∀ strat psm, att strat psm = none) :
    ∀ (strats : List String) (best : StratBest),
      runStrategies att strats best = (best, strats.map (fun strat => (strat, psm_modes))) := by
  intro strats
  induction strats with
  | nil => intro best; rfl
  | cons strat rest ih =>
    intro best
    have he := runPsms_allFail (att strat) (h strat) psm_modes
      { text := [], confidence := 0, psm := none }
    simp [runStrategies, extract_text_from_image, he, ih best]

/-- C2 (amended): the early stop is two-level and strict.  In the
strategies loop, every executed strategy except possibly the last one
failed the stop test `success ∧ confidence > 80 ∧ text length > 20`
evaluated on the strategy's aggregated best result (so once a strategy
result passes it, no later strategy's attempts are executed); in the
PSM loop of one strategy, every executed attempt except possibly the
last one failed the per-attempt test
`confidence > 75 ∧ stripped length > 10`. -/
theorem C2_early_stop_amended :
    (∀ (att : String → Nat → Option TessOut) (strats : List String) (best : StratBest),
       ∀ seg ∈ (runStrategies att strats best).2.dropLast, ¬ outerStops att seg.1)
  ∧ (∀ (att : Nat → Option TessOut) (psms : List Nat) (best : BestR),
       ∀ psm ∈ (runPsms att psms best).2.dropLast, ¬ innerStops att psm) :=
  ⟨runStrategies_no_stop_before_last, runPsms_no_stop_before_last⟩

/-- C2 witness: the always-failing oracle executes PSM 3 before the
last attempt only because PSM 3 did not satisfy the stop test. -/
theorem C2_early_stop_witness : ¬ innerStops (fun _ => none) 3 :=
  C2_early_stop_amended.2 (fun _ => none) psm_modes
    { text := [], confidence := 0, psm := none } 3 (by decide)

/-- Text of exactly 30 non-whitespace characters. -/
def qualText : Str := List.replicate 30 'x'

/-- Oracle whose very first attempt (strategy `advanced`, PSM 3)
succeeds with backend confidence exactly 80 and a 30-character text,
and whose other attempts all raise. -/
def att80 (strat : String) (psm : Nat) : Option TessOut :=
  if strat = "advanced" ∧ psm = 3 then some { text := qualText, confs := some [80] } else none

theorem stripChars_qual : stripChars qualText = qualText := by decide

theorem qualText_length : qualText.length = 30 := by decide

theorem att80_adv3 : att80 "advanced" 3 = some { text := qualText, confs := some [80] } := by
  rw [att80, if_pos ⟨rfl, rfl⟩]

theorem att80_fail_strat (strat : String) (hs : strat ≠ "advanced") :
    ∀ psm, att80 strat psm = none := by
  intro psm
  rw [att80, if_neg]
  rintro ⟨h1, _⟩
  exact hs h1

theorem attemptConf_qual : attemptConf { text := qualText, confs := some [80] } = 80 := by
  have hv : (([80] : List Int).filter (fun c => c != -1)) = [80] := by decide
  unfold attemptConf avgConfidence
  simp only [hv]
  rw [if_neg (by decide : ¬ ([80] : List Int) = [])]
  norm_num

theorem runPsms_att80_adv :
    runPsms (att80 "advanced") psm_modes { text := [], confidence := 0, psm := none } =
      ({ text := qualText, confidence := 80, psm := some 3 }, [3]) := by
  rw [show psm_modes = 3 :: [6, 4, 1, 11, 12] from rfl]
  simp only [runPsms, att80_adv3, attemptConf_qual, stripChars_qual, qualText_length]
  norm_num

theorem extract_att80_adv :
    extract_text_from_image (att80 "advanced") =
      ({ success := true, text := qualText, confidence := 80, psm_used := 3,
         error := none }, [3]) := by
  unfold extract_text_from_image
  rw [runPsms_att80_adv]
  simp only [ne_eq]
  rw [if_pos (by decide : ¬ qualText = ([] : Str))]
  rfl

theorem extract_att80_fail (strat : String) (h : ∀ psm, att80 strat psm = none) :
    extract_text_from_image (att80 strat) =
      ({ success := false, text := [], confidence := 0, psm_used := 3,
         error := some noTextMsg }, psm_modes) := by
  unfold extract_text_from_image
  rw [runPsms_allFail _ h psm_modes]
  simp

theorem multiStrategies_att80 :
    extract_text_with_multiple_strategies att80 =
      ({ success := true, text := qualText, confidence := 80, strategy := some "advanced" },
       [("advanced", [3]), ("basic", psm_modes), ("none", psm_modes)]) := by
  have hb := extract_att80_fail "basic" (att80_fail_strat "basic" (by decide))
  have hn := extract_att80_fail "none" (att80_fail_strat "none" (by decide))
  unfold extract_text_with_multiple_strategies strategies
  simp only [runStrategies, extract_att80_adv, hb, hn, stripChars_qual, qualText_length]
  norm_num [score, min_def]

/-- C2 counterexample: the first attempt yields success with
confidence ≥ 80 (exactly 80) and text length ≥ 20, yet 12 further
attempts are executed (13 in total), because the code's stop tests are
strict (`> 80`, `> 20`) and are applied to the strategy's aggregated
result. -/
theorem C2_counterexample :
    ((extract_text_from_image (att80 "advanced")).1.success = true
      ∧ (extract_text_from_image (att80 "advanced")).1.confidence ≥ 80
      ∧ (stripChars (extract_text_from_image (att80 "advanced")).1.text).length ≥ 20)
    ∧ ((extract_text_with_multiple_strategies att80).2.map (fun seg => seg.2.length)).sum = 13 := by
  rw [extract_att80_adv, multiStrategies_att80]
  refine ⟨⟨rfl, le_refl _, ?_⟩, by decide⟩
  rw [stripChars_qual, qualText_length]
  norm_num

/-- C4 (amended): the strategies loop tries preprocessing variants in
the fixed order `advanced`, `basic`, `none` — most aggressive first —
and within each variant the recognition configurations in the fixed
order PSM 3, 6, 4, 1, 11, 12; with an oracle on which no attempt
succeeds, exactly this full product is executed in this order. -/
theorem C4_strategy_order_amended (att : String → Nat → Option TessOut)
    (h : ∀ strat psm, att strat psm = none) :
    (extract_text_with_multiple_strategies att).2 =
      [("advanced", psm_modes), ("basic", psm_modes), ("none", psm_modes)] := by
  unfold extract_text_with_multiple_strategies
  rw [runStrategies_allFail att h strategies]
  rfl

/-- C4 witness: the all-raising oracle realizes the amended ordering. -/
theorem C4_strategy_order_witness :
    (extract_text_with_multiple_strategies (fun _ _ => none)).2 =
      [("advanced", psm_modes), ("basic", psm_modes), ("none", psm_modes)] :=
  C4_strategy_order_amended (fun _ _ => none) (fun _ _ => rfl)

/-- C4 counterexample: the executed preprocessing variants come in the
order `advanced`, `basic`, `none`, so the cheapest variant `none` is
tried last, not first as the claim states. -/
theorem C4_counterexample :
    ((extract_text_with_multiple_strategies (fun _ _ => none)).2.map Prod.fst =
      ["advanced", "basic", "none"])
    ∧ ("advanced" : String) ≠ "none" := by
  decide

/-! Session-level machinery: sorting, reorder characterization. -/

theorem processOne_order_index (pipe : Nat → Except Str PipeResult) (img : OCRImage) :
    (processOne pipe img).order_index = img.order_index := by
  unfold processOne
  split
  · rfl
  · split <;> rfl

theorem processOne_id (pipe : Nat → Except Str PipeResult) (img : OCRImage) :
    (processOne pipe img).id = img.id := by
  unfold processOne
  split
  · rfl
  · split <;> rfl

theorem sortImgs_sorted (l : List OCRImage) : List.Sorted imgLe (sortImgs l) :=
  List.sorted_insertionSort imgLe l

theorem sortImgs_map_processOne (pipe : Nat → Except Str PipeResult) (l : List OCRImage) :
    sortImgs ((sortImgs l).map (processOne pipe)) = (sortImgs l).map (processOne pipe) := by
  apply List.Sorted.insertionSort_eq
  have hs := sortImgs_sorted l
  rw [List.Sorted] at hs ⊢
  rw [List.pairwise_map]
  refine hs.imp ?_
  intro a b hab
  show imgLe (processOne pipe a) (processOne pipe b)
  unfold imgLe
  rw [processOne_order_index, processOne_order_index]
  exact hab

theorem applyOrderAux_eq : ∀ (order : List Nat) (imgs : List OCRImage) (idx : Nat),
    applyOrderAux imgs order idx = imgs.map (fun img =>
      match lastIdx img.id order with
      | some k => { img with order_index := ((idx + k : Nat) : Int) }
      | none => img) := by
  intro order
  induction order with
  | nil =>
    intro imgs idx
    show imgs = _
    simp [lastIdx]
  | cons x xs ih =>
    intro imgs idx
    show applyOrderAux (setOrderIndex imgs x idx) xs (idx + 1) = _
    rw [ih (setOrderIndex imgs x idx) (idx + 1), setOrderIndex, List.map_map]
    refine List.map_congr_left ?_
    rintro ⟨iid, oi, st, ex, er⟩ _
    simp only [Function.comp_apply]
    by_cases hid : iid = x
    · subst hid
      rw [if_pos rfl]
      cases hk : lastIdx iid xs with
      | some k =>
        simp only [lastIdx, hk, OCRImage.mk.injEq, true_and, and_true]
        omega
      | none =>
        simp [lastIdx, hk]
    · rw [if_neg hid]
      cases hk : lastIdx iid xs with
      | some k =>
        simp only [lastIdx, hk, OCRImage.mk.injEq, true_and, and_true]
        omega
      | none =>
        have hx : ¬ x = iid := fun hh => hid hh.symm
        simp only [lastIdx, hk, if_neg hx]

theorem applyOrderAux_fields (order : List Nat) (imgs : List OCRImage) (idx : Nat) :
    ∀ i ∈ applyOrderAux imgs order idx, ∃ j ∈ imgs,
      i.status = j.status ∧ i.extracted_text = j.extracted_text := by
  intro i hi
  rw [applyOrderAux_eq] at hi
  rcases List.mem_map.mp hi with ⟨j, hj, rfl⟩
  refine ⟨j, hj, ?_⟩
  cases lastIdx j.id order with
  | some k => exact ⟨rfl, rfl⟩
  | none => exact ⟨rfl, rfl⟩

theorem filter_truthy_eq_filterMap :
    ∀ (l : List OCRImage),
      (∀ i ∈ l, i.status = "completed" → pyTruthy i.extracted_text = true) →
      ((l.filter (fun i => pyTruthy i.extracted_text && i.status == "completed")).map
        (fun i => i.extracted_text.getD []))
      = l.filterMap (fun i => if i.status = "completed" then i.extracted_text else none) := by
  intro l
  induction l with
  | nil => intro _; rfl
  | cons i rest ih =>
    intro h
    have hrest := ih (fun j hj => h j (List.mem_cons_of_mem i hj))
    by_cases hst : i.status = "completed"
    · have htr : pyTruthy i.extracted_text = true := h i (List.mem_cons_self _ _) hst
      cases hex : i.extracted_text with
      | none =>
        rw [hex] at htr
        simp [pyTruthy] at htr
      | some tx =>
        have hbeq : (i.status == "completed") = true := beq_iff_eq.mpr hst
        have hcond : (pyTruthy i.extracted_text && (i.status == "completed")) = true := by
          rw [htr, hbeq]
          rfl
        have hf : (if i.status = "completed" then i.extracted_text else none) = some tx := by
          rw [if_pos hst, hex]
        rw [List.filter_cons, List.filterMap_cons]
        simp only [hcond, hf, reduceIte, List.map_cons]
        rw [hex]
        simp only [Option.getD_some]
        rw [hrest]
    · have hbeq : (i.status == "completed") = false := beq_eq_false_iff_ne.mpr hst
      have hf : (if i.status = "completed" then i.extracted_text else none) = none :=
        if_neg hst
      rw [List.filter_cons, List.filterMap_cons]
      simp only [hbeq, Bool.and_false, hf, Bool.false_eq_true, reduceIte]
      exact hrest

theorem processOne_error (pipe : Nat → Except Str PipeResult) (img : OCRImage) (e : Str)
    (h : pipe img.id = Except.error e) :
    processOne pipe img = { img with status := "failed", error_message := some e } := by
  unfold processOne
  rw [h]

theorem processOne_ok_good (pipe : Nat → Except Str PipeResult) (img : OCRImage)
    (r : PipeResult) (h : pipe img.id = Except.ok r) (hc : (r.success : Prop) ∧ r.text ≠ []) :
    processOne pipe img =
      { img with status := "completed", extracted_text := some (clean_text r.text) } := by
  unfold processOne
  rw [h]
  dsimp only
  rw [if_pos hc]

theorem processOne_ok_bad (pipe : Nat → Except Str PipeResult) (img : OCRImage)
    (r : PipeResult) (h : pipe img.id = Except.ok r)
    (hc : ¬ ((r.success : Prop) ∧ r.text ≠ [])) :
    processOne pipe img =
      { img with status := "failed", error_message := some (r.error.getD defaultErr) } := by
  unfold processOne
  rw [h]
  dsimp only
  rw [if_neg hc]

theorem process_session_inv (pipe : Nat → Except Str PipeResult) (s : SessionState) :
    sessionInv (process_session pipe s) := by
  unfold sessionInv process_session combinedOf
  simp only []
  rw [sortImgs_map_processOne]

theorem reorder_inv (s : SessionState) (order : List Nat)
    (h : ∀ i ∈ s.images, i.status = "completed" → pyTruthy i.extracted_text = true) :
    sessionInv (reorder_images s order) := by
  unfold sessionInv reorder_images combinedOf
  simp only []
  rw [filter_truthy_eq_filterMap]
  intro i hi hst
  have hi2 : i ∈ applyOrderAux s.images order 0 := by
    unfold sortImgs at hi
    exact (List.mem_insertionSort imgLe).mp hi
  rcases applyOrderAux_fields order s.images 0 i hi2 with ⟨j, hj, hstj, hexj⟩
  rw [hexj]
  exact h j hj (by rw [← hstj]; exact hst)

/-- C1 (amended): after `process_session` the session's combined text
equals the cleaned texts of all `completed` members joined by `'\n\n'`
in ascending `order_index` order; after `reorder_images` the same
invariant holds whenever every completed member has non-empty stored
text (the handler additionally filters on text truthiness); but
`reprocess_single_image` and `delete_image` do not recompute the
combined text at all — they leave it unchanged. -/
theorem C1_combined_text_amended :
    (∀ (pipe : Nat → Except Str PipeResult) (s : SessionState),
        sessionInv (process_session pipe s))
  ∧ (∀ (s : SessionState) (order : List Nat),
        (∀ i ∈ s.images, i.status = "completed" → pyTruthy i.extracted_text = true) →
        sessionInv (reorder_images s order))
  ∧ (∀ (res : Except Str PipeResult) (iid : Nat) (s : SessionState),
        (reprocess_single_image res iid s).combined_text = s.combined_text)
  ∧ (∀ (iid : Nat) (s : SessionState),
        (delete_image iid s).combined_text = s.combined_text) :=
  ⟨process_session_inv, reorder_inv, fun _ _ _ => rfl, fun _ _ => rfl⟩

/-- Completed image with text `a` at position 0. -/
def imgA : OCRImage :=
  { id := 1, order_index := 0, status := "completed", extracted_text := some ['a'],
    error_message := none }

/-- Completed image with text `b` at position 1. -/
def imgB : OCRImage :=
  { id := 2, order_index := 1, status := "completed", extracted_text := some ['b'],
    error_message := none }

/-- Two-member session satisfying the combined-text invariant. -/
def sAB : SessionState :=
  { images := [imgA, imgB], combined_text := ['a', '\n', '\n', 'b'], image_count := 2,
    status := "completed" }

/-- C1 witness: a valid full reorder reestablishes the invariant. -/
theorem C1_combined_text_witness : sessionInv (reorder_images sAB [2, 1]) :=
  C1_combined_text_amended.2.1 sAB [2, 1] (by decide)

/-- One-member session satisfying the combined-text invariant. -/
def sA : SessionState :=
  { images := [imgA], combined_text := ['a'], image_count := 1, status := "completed" }

/-- C1 counterexample: deleting the only completed member leaves the
stale combined text `a`, while the invariant demands the empty string,
so the invariant does not hold after `delete_image`. -/
theorem C1_counterexample : sessionInv sA ∧ ¬ sessionInv (delete_image 1 sA) := by
  decide

/-- C3 (amended): the reorder handler performs no validation and never
rejects: each identity in the supplied list that belongs to the
session gets `order_index` set to its (last) position in the list,
unknown identities are ignored, unmentioned members keep their old
`order_index`, and the combined text is then recomputed — so invalid
input (partial, duplicate or unknown identities) still mutates the
session. -/
theorem C3_reorder_no_validation (s : SessionState) (order : List Nat) :
    (reorder_images s order).images = s.images.map (fun img =>
      match lastIdx img.id order with
      | some k => { img with order_index := (k : Int) }
      | none => img) := by
  show applyOrderAux s.images order 0 = _
  rw [applyOrderAux_eq]
  refine List.map_congr_left ?_
  intro img _
  cases lastIdx img.id order with
  | some k => simp
  | none => rfl

/-- C3 counterexample: the invalid partial order `[2]` (member 1 is
omitted) is not rejected — member 2's `order_index` is mutated from 1
to 0. -/
theorem C3_counterexample :
    (reorder_images sAB [2]).images.map (fun i => (i.id, i.order_index)) = [(1, 0), (2, 0)]
    ∧ sAB.images.map (fun i => (i.id, i.order_index)) = [(1, 0), (2, 1)] := by
  decide

/-- C5: processing a nonempty session always returns a result (never a
raised error): every member ends in status `completed` or `failed`
(never `processing`), the number of members is preserved, every failed
member carries an error message, and a pipeline exception for one
image is converted into that image's `failed` status with the
exception text as its message. -/
theorem C5_process_session_absorbs (pipe : Nat → Except Str PipeResult) (s : SessionState)
    (h : s.images ≠ []) :
    ∃ s', process_session_route pipe s = Except.ok s'
      ∧ s'.images.length = s.images.length
      ∧ (∀ img ∈ s'.images, img.status = "completed" ∨ img.status = "failed")
      ∧ (∀ img ∈ s'.images, img.status = "failed" → img.error_message.isSome = true)
      ∧ (∀ img ∈ s'.images, ∀ e, pipe img.id = Except.error e →
           img.status = "failed" ∧ img.error_message = some e)
      ∧ (∀ j ∈ s.images, processOne pipe j ∈ s'.images) := by
  refine ⟨process_session pipe s, ?_, ?_, ?_, ?_, ?_, ?_⟩
  · unfold process_session_route
    rw [if_neg h]
  · show ((sortImgs s.images).map (processOne pipe)).length = _
    rw [List.length_map]
    exact List.length_insertionSort imgLe s.images
  · intro img hmem
    rcases List.mem_map.mp hmem with ⟨j, _, rfl⟩
    cases hp : pipe j.id with
    | error e =>
      rw [processOne_error pipe j e hp]
      right
      rfl
    | ok r =>
      by_cases hc : (r.success : Prop) ∧ r.text ≠ []
      · rw [processOne_ok_good pipe j r hp hc]
        left
        rfl
      · rw [processOne_ok_bad pipe j r hp hc]
        right
        rfl
  · intro img hmem hf
    rcases List.mem_map.mp hmem with ⟨j, _, rfl⟩
    cases hp : pipe j.id with
    | error e =>
      rw [processOne_error pipe j e hp]
      rfl
    | ok r =>
      by_cases hc : (r.success : Prop) ∧ r.text ≠ []
      · rw [processOne_ok_good pipe j r hp hc] at hf
        have hcf : ("completed" : String) = "failed" := hf
        exact absurd hcf (by decide)
      · rw [processOne_ok_bad pipe j r hp hc]
        rfl
  · intro img hmem e hpe
    rcases List.mem_map.mp hmem with ⟨j, _, rfl⟩
    rw [processOne_id] at hpe
    rw [processOne_error pipe j e hpe]
    exact ⟨rfl, rfl⟩
  · intro j hj
    exact List.mem_map_of_mem (processOne pipe)
      ((List.mem_insertionSort imgLe).mpr hj)

/-- The always-raising pipeline used in the C5 witness. -/
def boomPipe : Nat → Except Str PipeResult := fun _ => Except.error ['b']

/-- A pending one-member session. -/
def sPend : SessionState :=
  { images := [{ id := 1, order_index := 0, status := "pending", extracted_text := none,
                 error_message := none }],
    combined_text := [], image_count := 1, status := "active" }

/-- C5 witness: a session whose only image's pipeline raises still
processes to completion with the image `failed`. -/
theorem C5_process_session_witness :
    ∃ s', process_session_route boomPipe sPend = Except.ok s'
      ∧ s'.images.length = sPend.images.length
      ∧ (∀ img ∈ s'.images, img.status = "completed" ∨ img.status = "failed")
      ∧ (∀ img ∈ s'.images, img.status = "failed" → img.error_message.isSome = true)
      ∧ (∀ img ∈ s'.images, ∀ e, boomPipe img.id = Except.error e →
           img.status = "failed" ∧ img.error_message = some e)
      ∧ (∀ j ∈ sPend.images, processOne boomPipe j ∈ s'.images) :=
  C5_process_session_absorbs boomPipe sPend (by decide)

/-! Machinery for the multiple-images aggregation and its KeyError path. -/

theorem runStrategies_keyless (att : String → Nat → Option TessOut) :
    ∀ (strats : List String) (best : StratBest),
      (runStrategies att strats best).1.success = false →
      (runStrategies att strats best).1 = best := by
  intro strats
  induction strats with
  | nil => intro best _; rfl
  | cons strat rest ih =>
    intro best h
    simp only [runStrategies] at h ⊢
    by_cases hstop : ((extract_text_from_image (att strat)).1.success : Prop) ∧
        (extract_text_from_image (att strat)).1.confidence > 80 ∧
        (stripChars (extract_text_from_image (att strat)).1.text).length > 20
    · rw [if_pos hstop] at h ⊢
      dsimp only at h ⊢
      by_cases hrep : ((extract_text_from_image (att strat)).1.success : Prop) ∧
          score (extract_text_from_image (att strat)).1.confidence
              (stripChars (extract_text_from_image (att strat)).1.text).length >
            score best.confidence best.text.length
      · rw [if_pos hrep] at h
        dsimp only at h
        rw [hstop.1] at h
        exact Bool.noConfusion h
      · rw [if_neg hrep] at h ⊢
    · rw [if_neg hstop] at h ⊢
      dsimp only at h ⊢
      by_cases hrep : ((extract_text_from_image (att strat)).1.success : Prop) ∧
          score (extract_text_from_image (att strat)).1.confidence
              (stripChars (extract_text_from_image (att strat)).1.text).length >
            score best.confidence best.text.length
      · rw [if_pos hrep] at h
        have h2 := ih _ h
        rw [h2] at h
        dsimp only at h
        rw [hrep.1] at h
        exact Bool.noConfusion h
      · rw [if_neg hrep] at h ⊢
        exact ih best h

theorem multiLoop_keyed (ocr : String → ImageDict) :
    ∀ paths : List String, (∀ p ∈ paths, (ocr p).success.isSome = true) →
      multiLoop ocr paths = Except.ok (paths.map ocr,
        paths.filterMap (fun p =>
          if (ocr p).success.getD false = true ∧ (ocr p).text ≠ [] then some (ocr p).text
          else none)) := by
  intro paths
  induction paths with
  | nil => intro _; rfl
  | cons p rest ih =>
    intro h
    have hp := h p (List.mem_cons_self _ _)
    cases hs : (ocr p).success with
    | none =>
      rw [hs] at hp
      simp at hp
    | some b =>
      have hrest := ih (fun q hq => h q (List.mem_cons_of_mem p hq))
      simp only [multiLoop, hs, hrest, List.map_cons, List.filterMap_cons, Option.getD_some]
      by_cases hc : b = true ∧ (ocr p).text ≠ []
      · rw [if_pos hc, if_pos hc]
      · rw [if_neg hc, if_neg hc]

theorem multiLoop_err (ocr : String → ImageDict) :
    ∀ paths : List String, (∃ p ∈ paths, (ocr p).success = none) →
      multiLoop ocr paths = Except.error () := by
  intro paths
  induction paths with
  | nil =>
    rintro ⟨p, hp, _⟩
    simp at hp
  | cons p rest ih =>
    rintro ⟨q, hq, hqs⟩
    rcases List.mem_cons.mp hq with rfl | hq'
    · simp only [multiLoop, hqs]
    · cases hs : (ocr p).success with
      | none => simp only [multiLoop, hs]
      | some b => simp only [multiLoop, hs, ih ⟨q, hq', hqs⟩]

/-- C10 (amended): `extract_text_from_multiple_images` returns at all
exactly when every per-image result dict carries the `'success'` key;
reading the absent key of the keyless initial strategies dict —
returned whenever no strategy result was ever stored, in particular
when every attempt fails — raises `KeyError` out of the function
(line 321), so in the default multiple-strategies mode the all-failed
case raises instead of returning success.  When every per-image dict
is keyed, the function returns with top-level success True, per-image
failure visible only through the individual entries, and when every
keyed value is False the combined text is the empty string.
Single-mode results (`extract_text_from_image`) always carry the key,
so that mode never raises here. -/
theorem C10_multi_images_amended :
    (∀ (ocr : String → ImageDict) (paths : List String) (sep : Str),
       (∃ r, extract_text_from_multiple_images ocr paths sep = Except.ok r ∧ r.success = true)
       ↔ ∀ p ∈ paths, (ocr p).success.isSome = true)
  ∧ (∀ (ocr : String → ImageDict) (paths : List String) (sep : Str),
       (∀ p ∈ paths, (ocr p).success = some false) →
       ∃ r, extract_text_from_multiple_images ocr paths sep = Except.ok r
         ∧ r.success = true ∧ r.combined_text = [])
  ∧ (∀ att : String → Nat → Option TessOut, (∀ strat psm, att strat psm = none) →
       (stratBestDict (extract_text_with_multiple_strategies att).1).success = none)
  ∧ (∀ e : ExtractResult, (extractDict e).success = some e.success) := by
  refine ⟨?_, ?_, ?_, fun _ => rfl⟩
  · intro ocr paths sep
    constructor
    · rintro ⟨r, hr, _⟩
      intro p hp
      by_contra hnone
      rw [Option.not_isSome_iff_eq_none] at hnone
      rw [extract_text_from_multiple_images, multiLoop_err ocr paths ⟨p, hp, hnone⟩] at hr
      exact Except.noConfusion hr
    · intro h
      rw [extract_text_from_multiple_images, multiLoop_keyed ocr paths h]
      exact ⟨_, rfl, rfl⟩
  · intro ocr paths sep h
    have hkeys : ∀ p ∈ paths, (ocr p).success.isSome = true := by
      intro p hp
      rw [h p hp]
      rfl
    rw [extract_text_from_multiple_images, multiLoop_keyed ocr paths hkeys]
    refine ⟨_, rfl, rfl, ?_⟩
    have hnil : paths.filterMap (fun p =>
        if (ocr p).success.getD false = true ∧ (ocr p).text ≠ [] then some (ocr p).text
        else none) = [] := by
      rw [List.filterMap_eq_nil_iff]
      intro p hp
      rw [if_neg]
      rintro ⟨hb, _⟩
      rw [h p hp] at hb
      exact Bool.noConfusion hb
    show List.intercalate sep _ = []
    rw [hnil]
    rfl
  · intro att h
    unfold extract_text_with_multiple_strategies
    rw [runStrategies_allFail att h strategies]
    rfl

/-- C10 witness: one image whose per-image dict is keyed with
`success = False` still yields a returned result with top-level
success True and empty combined text. -/
theorem C10_multi_images_witness :
    ∃ r, extract_text_from_multiple_images (fun _ => { success := some false, text := [] })
        ["a"] sepNN = Except.ok r
      ∧ r.success = true ∧ r.combined_text = [] :=
  C10_multi_images_amended.2.1 (fun _ => { success := some false, text := [] })
    ["a"] sepNN (by decide)

/-- C10 counterexample: in the default multiple-strategies mode, an
image on which every attempt raises leaves the keyless initial best
dict, and the function raises `KeyError` instead of returning a result
with success True. -/
theorem C10_counterexample :
    extract_text_from_multiple_images
      (fun _ => stratBestDict (extract_text_with_multiple_strategies (fun _ _ => none)).1)
      ["a"] sepNN = Except.error () := by
  rfl

end LMN
